import Mathlib

/-!
Verification of the `va` module launcher (main.go and the download/build
source file) against its natural-language specification.

Go strings are modelled as lists of runes (`List Char`); every Go string
operation used by the program (`strings.Split`, `strings.Join`,
`path.Clean`, `path.Dir`, `path.Base`, `path.Join`, the `regexp` pattern,
`golang.org/x/mod/module.CheckPath`) is translated into an executable Lean
function on that model.  The resolve loop of `Download` is modelled as a
small-step transition function on an explicit loop state.
-/

set_option maxRecDepth 8000

namespace VA

/-- Go strings modelled as lists of runes. -/
abbrev GoStr := List Char

/-- Inject a Lean string literal into the Go-string model. -/
def str (s : String) : GoStr := s.toList

/-- `strings.Split(s, sep)` for a one-rune separator `c` (the program only
splits on "@", " " and "/").  On the empty string Go returns `[""]`. -/
def splitCh (c : Char) : GoStr → List GoStr
  | [] => [[]]
  | x :: xs =>
    match splitCh c xs with
    | [] => [[]]
    | f :: r => if x = c then [] :: f :: r else (x :: f) :: r

/-- `strings.Join(parts, sep)` for a one-rune separator `c`. -/
def joinCh (c : Char) : List GoStr → GoStr
  | [] => []
  | [p] => p
  | p :: ps => p ++ c :: joinCh c ps

theorem splitCh_ne_nil (c : Char) (s : GoStr) : splitCh c s ≠ [] := by
  cases s with
  | nil => simp [splitCh]
  | cons x xs =>
    simp only [splitCh]
    cases h : splitCh c xs with
    | nil => simp
    | cons f r => by_cases hx : x = c <;> simp [hx]

theorem splitCh_cons (c x : Char) (xs : GoStr) :
    splitCh c (x :: xs) =
      match splitCh c xs with
      | [] => [[]]
      | f :: r => if x = c then [] :: f :: r else (x :: f) :: r := rfl

theorem joinCh_cons_cons (c : Char) (p q : GoStr) (r : List GoStr) :
    joinCh c (p :: q :: r) = p ++ c :: joinCh c (q :: r) := rfl

theorem joinCh_splitCh (c : Char) (s : GoStr) : joinCh c (splitCh c s) = s := by
  induction s with
  | nil => rfl
  | cons x xs ih =>
    simp only [splitCh]
    cases h : splitCh c xs with
    | nil => exact absurd h (splitCh_ne_nil c xs)
    | cons f r =>
      rw [h] at ih
      by_cases hx : x = c
      · subst hx
        simpa [joinCh_cons_cons] using ih
      · have hj : joinCh c ((x :: f) :: r) = x :: joinCh c (f :: r) := by
          cases r <;> simp [joinCh]
        simp [hx, hj, ih]

theorem splitCh_of_not_mem (c : Char) (a : GoStr) (ha : c ∉ a) :
    splitCh c a = [a] := by
  induction a with
  | nil => rfl
  | cons x xs ih =>
    have hx : x ≠ c := fun h => ha (h ▸ List.mem_cons_self x xs)
    have hxs : c ∉ xs := fun h => ha (List.mem_cons_of_mem x h)
    simp [splitCh, ih hxs, hx]

theorem splitCh_append_sep (c : Char) (a b : GoStr) (ha : c ∉ a) :
    splitCh c (a ++ c :: b) = a :: splitCh c b := by
  induction a with
  | nil =>
    cases h : splitCh c b with
    | nil => exact absurd h (splitCh_ne_nil c b)
    | cons f r => simp [splitCh, h]
  | cons x xs ih =>
    have hx : x ≠ c := fun h => ha (h ▸ List.mem_cons_self x xs)
    have hxs : c ∉ xs := fun h => ha (List.mem_cons_of_mem x h)
    rw [List.cons_append, splitCh_cons, ih hxs]
    simp [hx]

theorem not_mem_of_mem_splitCh (c : Char) (s p : GoStr)
    (hp : p ∈ splitCh c s) : c ∉ p := by
  induction s generalizing p with
  | nil =>
    simp [splitCh] at hp
    simp [hp]
  | cons x xs ih =>
    simp only [splitCh] at hp
    cases h : splitCh c xs with
    | nil => exact absurd h (splitCh_ne_nil c xs)
    | cons f r =>
      rw [h] at hp
      by_cases hx : x = c
      · simp [hx] at hp
        rcases hp with hp | hp | hp
        · simp [hp]
        · exact ih p (by rw [h]; exact hp ▸ List.mem_cons_self f r)
        · exact ih p (by rw [h]; exact List.mem_cons_of_mem f hp)
      · simp [hx] at hp
        rcases hp with hp | hp
        · subst hp
          intro hmem
          rcases List.mem_cons.mp hmem with hc | hc
          · exact hx hc.symm
          · exact ih f (by rw [h]; exact List.mem_cons_self f r) hc
        · exact ih p (by rw [h]; exact List.mem_cons_of_mem f hp)

theorem length_splitCh (c : Char) (s : GoStr) :
    (splitCh c s).length = s.count c + 1 := by
  induction s with
  | nil => simp [splitCh]
  | cons x xs ih =>
    rw [splitCh_cons]
    cases h : splitCh c xs with
    | nil => exact absurd h (splitCh_ne_nil c xs)
    | cons f r =>
      rw [h] at ih
      simp only [List.length_cons] at ih
      dsimp only
      by_cases hx : x = c
      · subst hx
        rw [if_pos rfl]
        simp only [List.length_cons, List.count_cons_self]
        omega
      · rw [if_neg hx, List.count_cons_of_ne (fun h2 => hx h2.symm)]
        simpa using ih

theorem splitCh_joinCh (c : Char) (ps : List GoStr) (hps : ps ≠ [])
    (h : ∀ p ∈ ps, c ∉ p) : splitCh c (joinCh c ps) = ps := by
  induction ps with
  | nil => exact absurd rfl hps
  | cons p ps ih =>
    cases ps with
    | nil => simpa [joinCh] using splitCh_of_not_mem c p (h p (by simp))
    | cons q r =>
      rw [joinCh_cons_cons, splitCh_append_sep c p _ (h p (by simp))]
      rw [ih (by simp) (fun x hx => h x (List.mem_cons_of_mem p hx))]

theorem joinCh_append (c : Char) (a b : List GoStr) (ha : a ≠ []) (hb : b ≠ []) :
    joinCh c (a ++ b) = joinCh c a ++ c :: joinCh c b := by
  induction a with
  | nil => exact absurd rfl ha
  | cons p ps ih =>
    cases ps with
    | nil =>
      cases b with
      | nil => exact absurd rfl hb
      | cons q r => simp [joinCh_cons_cons, joinCh]
    | cons q r =>
      have : (p :: q :: r) ++ b = p :: ((q :: r) ++ b) := by simp
      rw [this]
      have h2 : (q :: r) ++ b = q :: (r ++ b) := by simp
      have h3 : joinCh c (p :: ((q :: r) ++ b)) = p ++ c :: joinCh c ((q :: r) ++ b) := by
        rw [h2]; exact joinCh_cons_cons c p q (r ++ b)
      rw [h3, ih (by simp), joinCh_cons_cons]
      simp

theorem joinCh_concat (c : Char) (a : List GoStr) (s : GoStr) (ha : a ≠ []) :
    joinCh c (a ++ [s]) = joinCh c a ++ c :: s := by
  rw [joinCh_append c a [s] ha (by simp)]
  rfl

theorem joinCh_ne_nil (c : Char) (ps : List GoStr) (hps : ps ≠ [])
    (h : ∀ p ∈ ps, p ≠ []) : joinCh c ps ≠ [] := by
  cases ps with
  | nil => exact absurd rfl hps
  | cons p q =>
    cases q with
    | nil => simpa [joinCh] using h p (by simp)
    | cons q r =>
      rw [joinCh_cons_cons]
      intro hcontra
      have := List.append_eq_nil.mp hcontra
      simp at this

theorem joinCh_head? (c : Char) (p : GoStr) (ps : List GoStr) (hp : p ≠ []) :
    (joinCh c (p :: ps)).head? = p.head? := by
  cases ps with
  | nil => rfl
  | cons q r =>
    rw [joinCh_cons_cons]
    cases p with
    | nil => exact absurd rfl hp
    | cons x xs => simp

/-! ### The Go `path` package

`Download` (the second source file) uses `path.Clean`, `path.Dir`,
`path.Base` and `path.Join`.  `path.Clean` is translated at the level of
slash-separated components: empty and "." components are dropped, ".."
pops a previous component (or is kept at the front of a relative path),
which is exactly what the byte-level lazybuf loop of the Go source
computes. -/

/-- One component step of `path.Clean`. -/
def cleanStep (rooted : Bool) (acc : List GoStr) (comp : GoStr) : List GoStr :=
  if comp = [] ∨ comp = ['.'] then acc
  else if comp = ['.', '.'] then
    match acc with
    | [] => if rooted then [] else [['.', '.']]
    | top :: rest => if top = ['.', '.'] then comp :: top :: rest else rest
  else comp :: acc

/-- `path.Clean`. -/
def goClean (p : GoStr) : GoStr :=
  if p = [] then ['.']
  else
    let rooted := decide (p.head? = some '/')
    let stack := (splitCh '/' p).foldl (cleanStep rooted) []
    let body := joinCh '/' stack.reverse
    if rooted then '/' :: body
    else if body = [] then ['.'] else body

/-- `path.Split`: split after the final slash; the directory part keeps the
trailing slash, exactly as `path.Split` returns `path[:i+1], path[i+1:]`. -/
def lastSlashSplit (p : GoStr) : GoStr × GoStr :=
  (p.take (p.length - ((p.reverse.takeWhile (fun c => c != '/')).reverse).length),
   (p.reverse.takeWhile (fun c => c != '/')).reverse)

/-- `path.Dir`. -/
def goDir (p : GoStr) : GoStr := goClean (lastSlashSplit p).1

/-- `path.Base`. -/
def goBase (p : GoStr) : GoStr :=
  if p = [] then ['.']
  else
    let q := (p.reverse.dropWhile (fun c => c == '/')).reverse
    if q = [] then ['/']
    else (q.reverse.takeWhile (fun c => c != '/')).reverse

/-- `path.Join` restricted to two elements, as called in `pathTrim`. -/
def goJoin2 (a b : GoStr) : GoStr :=
  if a = [] ∧ b = [] then []
  else if a = [] then goClean b
  else if b = [] then goClean a
  else goClean (a ++ '/' :: b)

/-- `pathTrim` from the download source file: chop the last element off the
path and prepend it onto the tail. -/
def pathTrim (curPath curTail : GoStr) : GoStr × GoStr :=
  (goClean (goDir curPath), goJoin2 (goBase curPath) curTail)

/-- A well-formed path segment: nonempty, slash-free and not a dot
component.  Module paths accepted by `module.CheckPath` consist only of
such segments. -/
def IsSeg (s : GoStr) : Prop :=
  s ≠ [] ∧ '/' ∉ s ∧ s ≠ ['.'] ∧ s ≠ ['.', '.']

instance (s : GoStr) : Decidable (IsSeg s) := by
  unfold IsSeg; infer_instance

/-! Helper lemmas about `takeWhile`/`dropWhile` on lists. -/

theorem takeWhile_of_all (p : Char → Bool) (a : GoStr)
    (h : ∀ x ∈ a, p x = true) : a.takeWhile p = a := by
  induction a with
  | nil => rfl
  | cons x xs ih =>
    rw [List.takeWhile_cons, if_pos (h x (by simp)), ih (fun y hy => h y (by simp [hy]))]

theorem takeWhile_append_stop (p : Char → Bool) (a : GoStr) (y : Char) (b : GoStr)
    (h : ∀ x ∈ a, p x = true) (hy : p y = false) :
    ((a ++ y :: b).takeWhile p) = a := by
  induction a with
  | nil => simp [List.takeWhile_cons, hy]
  | cons x xs ih =>
    rw [List.cons_append, List.takeWhile_cons, if_pos (h x (by simp))]
    rw [ih (fun z hz => h z (by simp [hz]))]

theorem dropWhile_cons_of_neg (p : Char → Bool) (x : Char) (xs : GoStr)
    (hx : p x = false) : (x :: xs).dropWhile p = x :: xs := by
  rw [List.dropWhile_cons, if_neg (by simp [hx])]

/-! Behaviour of `goClean`, `goDir`, `goBase`, `goJoin2` on slash-joined
lists of well-formed segments. -/

theorem cleanFold (rooted : Bool) (comps : List GoStr) (acc : List GoStr)
    (h : ∀ x ∈ comps, x = [] ∨ IsSeg x) :
    comps.foldl (cleanStep rooted) acc =
      (comps.filter (fun x => !x.isEmpty)).reverse ++ acc := by
  induction comps generalizing acc with
  | nil => simp
  | cons x xs ih =>
    rcases h x (by simp) with hx | hx
    · subst hx
      rw [List.foldl_cons]
      have hstep : cleanStep rooted acc [] = acc := by simp [cleanStep]
      rw [hstep, ih acc (fun y hy => h y (by simp [hy]))]
      simp
    · rw [List.foldl_cons]
      have hstep : cleanStep rooted acc x = x :: acc := by
        obtain ⟨h1, _, h3, h4⟩ := hx
        simp [cleanStep, h1, h3, h4]
      rw [hstep, ih (x :: acc) (fun y hy => h y (by simp [hy]))]
      have hne : x.isEmpty = false := by
        cases x with
        | nil => exact absurd rfl hx.1
        | cons c cs => rfl
      simp [List.filter_cons, hne]

theorem joinCh_segs_head_ne_slash (ss : List GoStr) (hne : ss ≠ [])
    (h : ∀ s ∈ ss, IsSeg s) : (joinCh '/' ss).head? ≠ some '/' := by
  cases ss with
  | nil => exact absurd rfl hne
  | cons s rest =>
    rw [joinCh_head? '/' s rest (h s (by simp)).1]
    cases s with
    | nil => exact absurd rfl (h _ (by simp)).1
    | cons ch cs =>
      have hch : ch ≠ '/' := by
        intro hc
        have hmem : (ch :: cs) ∈ (ch :: cs) :: rest := List.mem_cons_self _ _
        exact (h _ hmem).2.1 (by rw [hc]; exact List.mem_cons_self _ _)
      simp [hch]

theorem goClean_of_segs (ss : List GoStr) (hne : ss ≠ [])
    (h : ∀ s ∈ ss, IsSeg s) : goClean (joinCh '/' ss) = joinCh '/' ss := by
  have hpne : joinCh '/' ss ≠ [] :=
    joinCh_ne_nil '/' ss hne (fun s hs => (h s hs).1)
  have hroot : decide ((joinCh '/' ss).head? = some '/') = false :=
    decide_eq_false (joinCh_segs_head_ne_slash ss hne h)
  have hsplit : splitCh '/' (joinCh '/' ss) = ss :=
    splitCh_joinCh '/' ss hne (fun p hp => (h p hp).2.1)
  have hfold : (splitCh '/' (joinCh '/' ss)).foldl (cleanStep false) [] = ss.reverse := by
    rw [hsplit, cleanFold false ss [] (fun x hx => Or.inr (h x hx))]
    rw [List.filter_eq_self.mpr]
    · simp
    · intro a ha
      cases a with
      | nil => exact absurd rfl (h [] ha).1
      | cons c cs => rfl
  simp only [goClean, hroot, if_neg hpne, Bool.false_eq_true, if_false, hfold,
    List.reverse_reverse]

theorem goClean_of_segs_slash (ss : List GoStr) (hne : ss ≠ [])
    (h : ∀ s ∈ ss, IsSeg s) :
    goClean (joinCh '/' ss ++ ['/']) = joinCh '/' ss := by
  have hj : joinCh '/' ss ++ ['/'] = joinCh '/' (ss ++ [[]]) := by
    rw [joinCh_concat '/' ss [] hne]
  have hpne : joinCh '/' ss ≠ [] :=
    joinCh_ne_nil '/' ss hne (fun s hs => (h s hs).1)
  have hpne2 : joinCh '/' ss ++ ['/'] ≠ [] := by simp
  have hroot : decide ((joinCh '/' ss ++ ['/']).head? = some '/') = false := by
    apply decide_eq_false
    have hh := joinCh_segs_head_ne_slash ss hne h
    cases hjc : joinCh '/' ss with
    | nil => exact absurd hjc hpne
    | cons c cs =>
      rw [hjc] at hh
      simpa using hh
  have hsplit : splitCh '/' (joinCh '/' ss ++ ['/']) = ss ++ [[]] := by
    rw [hj]
    exact splitCh_joinCh '/' (ss ++ [[]]) (by simp)
      (fun p hp => by
        rcases List.mem_append.mp hp with hp | hp
        · exact (h p hp).2.1
        · simp at hp; simp [hp])
  have hfold : (splitCh '/' (joinCh '/' ss ++ ['/'])).foldl (cleanStep false) []
      = ss.reverse := by
    rw [hsplit, cleanFold false (ss ++ [[]]) []
      (fun x hx => by
        rcases List.mem_append.mp hx with hx | hx
        · exact Or.inr (h x hx)
        · simp at hx; simp [hx])]
    rw [List.filter_append]
    rw [List.filter_eq_self.mpr]
    · simp
    · intro a ha
      cases a with
      | nil => exact absurd rfl (h [] ha).1
      | cons c cs => rfl
  simp only [goClean, hroot, if_neg hpne2, Bool.false_eq_true, if_false, hfold,
    List.reverse_reverse]
  rw [if_neg hpne]

theorem lastSlashSplit_concat (a : GoStr) (s : GoStr) (hs : '/' ∉ s) :
    lastSlashSplit (a ++ '/' :: s) = (a ++ ['/'], s) := by
  unfold lastSlashSplit
  have hfile : ((a ++ '/' :: s).reverse.takeWhile (fun c => c != '/')).reverse = s := by
    rw [List.reverse_append]
    have : ('/' :: s).reverse = s.reverse ++ ['/'] := by simp
    rw [this, List.append_assoc]
    have hstop : ((s.reverse ++ '/' :: a.reverse).takeWhile (fun c => c != '/')) = s.reverse := by
      apply takeWhile_append_stop
      · intro x hx
        have : x ∈ s := List.mem_reverse.mp hx
        have hxne : x ≠ '/' := fun hc => hs (hc ▸ this)
        simp [hxne]
      · simp
    simp only [List.singleton_append, hstop, List.reverse_reverse]
  rw [hfile]
  have hlen : (a ++ '/' :: s).length - s.length = (a ++ ['/']).length := by
    simp only [List.length_append, List.length_cons, List.length_nil]
    omega
  rw [hlen]
  have hsplitapp : a ++ '/' :: s = (a ++ ['/']) ++ s := by simp
  rw [hsplitapp, List.take_left]

theorem lastSlashSplit_no_slash (s : GoStr) (hs : '/' ∉ s) :
    lastSlashSplit s = ([], s) := by
  unfold lastSlashSplit
  have hfile : (s.reverse.takeWhile (fun c => c != '/')).reverse = s := by
    rw [takeWhile_of_all]
    · simp
    · intro x hx
      have : x ∈ s := List.mem_reverse.mp hx
      have hxne : x ≠ '/' := fun hc => hs (hc ▸ this)
      simp [hxne]
  rw [hfile]
  simp

theorem goDir_concat (qs : List GoStr) (s : GoStr)
    (h : ∀ x ∈ qs ++ [s], IsSeg x) :
    goDir (joinCh '/' (qs ++ [s])) = if qs = [] then ['.'] else joinCh '/' qs := by
  by_cases hqs : qs = []
  · subst hqs
    simp only [List.nil_append]
    have hs := h s (by simp)
    have : joinCh '/' [s] = s := rfl
    rw [this, goDir, lastSlashSplit_no_slash s hs.2.1]
    simp [goClean, if_pos rfl]
  · rw [if_neg hqs]
    have hjoin : joinCh '/' (qs ++ [s]) = joinCh '/' qs ++ '/' :: s :=
      joinCh_concat '/' qs s hqs
    have hs := h s (by simp)
    rw [goDir, hjoin, lastSlashSplit_concat _ s hs.2.1]
    exact goClean_of_segs_slash qs hqs (fun x hx => h x (by simp [hx]))

theorem goBase_concat (qs : List GoStr) (s : GoStr)
    (h : ∀ x ∈ qs ++ [s], IsSeg x) :
    goBase (joinCh '/' (qs ++ [s])) = s := by
  have hs := h s (by simp)
  obtain ⟨c, cs, hcs⟩ : ∃ c cs, s = c :: cs := by
    cases s with
    | nil => exact absurd rfl hs.1
    | cons c cs => exact ⟨c, cs, rfl⟩
  have hc : c ≠ '/' := by
    intro hc
    exact hs.2.1 (by rw [hcs, hc]; exact List.mem_cons_self _ _)
  by_cases hqs : qs = []
  · subst hqs
    have hjoin : joinCh '/' ([] ++ [s]) = s := rfl
    rw [hjoin, goBase, if_neg hs.1]
    have hrev : s.reverse.dropWhile (fun x => x == '/') = s.reverse := by
      cases hsr : s.reverse with
      | nil => rfl
      | cons y ys =>
        have hy : y ∈ s := List.mem_reverse.mp (hsr ▸ List.mem_cons_self y ys)
        have hyne : y ≠ '/' := fun hcy => hs.2.1 (hcy ▸ hy)
        exact dropWhile_cons_of_neg _ y ys (by simp [hyne])
    rw [hrev]
    simp only [List.reverse_reverse, if_neg hs.1]
    rw [takeWhile_of_all]
    · simp
    · intro x hx
      have : x ∈ s := List.mem_reverse.mp hx
      have hxne : x ≠ '/' := fun hcx => hs.2.1 (hcx ▸ this)
      simp [hxne]
  · have hjoin : joinCh '/' (qs ++ [s]) = joinCh '/' qs ++ '/' :: s :=
      joinCh_concat '/' qs s hqs
    rw [hjoin, goBase]
    have hne : joinCh '/' qs ++ '/' :: s ≠ [] := by simp
    rw [if_neg hne]
    have hrevapp : (joinCh '/' qs ++ '/' :: s).reverse
        = s.reverse ++ '/' :: (joinCh '/' qs).reverse := by
      simp
    have hdrop : (joinCh '/' qs ++ '/' :: s).reverse.dropWhile (fun x => x == '/')
        = (joinCh '/' qs ++ '/' :: s).reverse := by
      rw [hrevapp]
      obtain ⟨y, ys, hy⟩ : ∃ y ys, s.reverse = y :: ys := by
        cases hk : s.reverse with
        | nil =>
          rw [hcs] at hk
          simp at hk
        | cons y ys => exact ⟨y, ys, rfl⟩
      have hymem : y ∈ s := List.mem_reverse.mp (hy ▸ List.mem_cons_self y ys)
      have hyne : y ≠ '/' := fun hcy => hs.2.1 (hcy ▸ hymem)
      rw [hy, List.cons_append]
      exact dropWhile_cons_of_neg _ y _ (by simp [hyne])
    rw [hdrop, List.reverse_reverse, if_neg hne, hrevapp]
    have hstop : (s.reverse ++ '/' :: (joinCh '/' qs).reverse).takeWhile (fun c => c != '/')
        = s.reverse := by
      apply takeWhile_append_stop
      · intro x hx
        have : x ∈ s := List.mem_reverse.mp hx
        have hxne : x ≠ '/' := fun hcx => hs.2.1 (hcx ▸ this)
        simp [hxne]
      · simp
    rw [hstop, List.reverse_reverse]

theorem goJoin2_joins (ps ts : List GoStr) (hps : ps ≠ [])
    (h : ∀ x ∈ ps ++ ts, IsSeg x) :
    goJoin2 (joinCh '/' ps) (joinCh '/' ts) = joinCh '/' (ps ++ ts) := by
  have hpne : joinCh '/' ps ≠ [] :=
    joinCh_ne_nil '/' ps hps (fun s hs => (h s (by simp [hs])).1)
  by_cases hts : ts = []
  · subst hts
    have : joinCh '/' ([] : List GoStr) = [] := rfl
    rw [this, goJoin2, if_neg (by simp [hpne]), if_neg hpne, if_pos rfl]
    rw [List.append_nil]
    exact goClean_of_segs ps hps (fun x hx => h x (by simp [hx]))
  · have htne : joinCh '/' ts ≠ [] :=
      joinCh_ne_nil '/' ts hts (fun s hs => (h s (by simp [hs])).1)
    rw [goJoin2, if_neg (by simp [hpne]), if_neg hpne, if_neg htne]
    rw [← joinCh_append '/' ps ts hps hts]
    exact goClean_of_segs (ps ++ ts) (by simp [hps]) h

theorem pathTrim_concat (qs : List GoStr) (s : GoStr) (ts : List GoStr)
    (h : ∀ x ∈ qs ++ s :: ts, IsSeg x) :
    pathTrim (joinCh '/' (qs ++ [s])) (joinCh '/' ts) =
      ((if qs = [] then ['.'] else joinCh '/' qs), joinCh '/' (s :: ts)) := by
  have hconcat : ∀ x ∈ qs ++ [s], IsSeg x := by
    intro x hx
    rcases List.mem_append.mp hx with hx | hx
    · exact h x (by simp [hx])
    · simp at hx
      exact h x (by simp [hx])
  unfold pathTrim
  rw [goDir_concat qs s hconcat, goBase_concat qs s hconcat]
  have h1 : goClean (if qs = [] then ['.'] else joinCh '/' qs) =
      (if qs = [] then ['.'] else joinCh '/' qs) := by
    by_cases hqs : qs = []
    · simp only [if_pos hqs]
      decide
    · simp only [if_neg hqs]
      exact goClean_of_segs qs hqs (fun x hx => h x (by simp [hx]))
  have h2 : goJoin2 s (joinCh '/' ts) = joinCh '/' (s :: ts) := by
    have hj := goJoin2_joins [s] ts (by simp) (fun x hx => by
      rcases List.mem_append.mp hx with hx | hx
      · simp at hx
        exact hx ▸ h s (by simp)
      · exact h x (by simp [hx]))
    have hsing : joinCh '/' [s] = s := rfl
    rw [hsing] at hj
    simpa using hj
  rw [h1, h2]

/-! ### The resolve loop of `Download`

The loop in `Download` is modelled as a small-step transition function on
an explicit loop state.  `probe` stands for the external
`go mod download -json path@version` call and receives the reconstituted
`path + "@" + version` string; `none` is a successful probe, `some e` a
failed one carrying the error `e`.  On failure the Go loop first trims the
path, then tests `path == "."` and returns the wrapped error, otherwise
retries; that is exactly the `some` branch below. -/

inductive RState where
  | running (path tail : GoStr) : RState
  | success (root tail : GoStr) : RState
  | exhausted (e : GoStr) : RState
deriving DecidableEq

/-- One iteration of the `for !found` loop in `Download`. -/
def resolveStep (probe : GoStr → Option GoStr) (version : GoStr) : RState → RState
  | .running p t =>
    match probe (p ++ '@' :: version) with
    | none => .success p t
    | some e =>
      if (pathTrim p t).1 = ['.'] then .exhausted e
      else .running (pathTrim p t).1 (pathTrim p t).2
  | s => s

/-- A state in which the loop has stopped (success or exhaustion). -/
def RState.isFinal : RState → Bool
  | .running _ _ => false
  | _ => true

/-- The entry of `Download`: split `mod` at "@"; fewer or more than two
parts is the "not a module" error, otherwise the loop starts with the
path part, the version part, and an empty tail. -/
def DownloadInit (mod : GoStr) : Except GoStr (GoStr × RState) :=
  match splitCh '@' mod with
  | [p, v] => .ok (v, .running p [])
  | _ => .error (str "not a module")

/-- Separator-joining the state's current path and tail (in that order)
gives `orig`; trivial for the exhausted state. -/
def RStateJoinsTo (orig : GoStr) : RState → Prop
  | .running p t => goJoin2 p t = orig
  | .success p t => goJoin2 p t = orig
  | .exhausted _ => True

/-- Invariant: a live or successful state is the slash-join of a nonempty
segment decomposition of the original segment list. -/
def GoodState (orig : List GoStr) : RState → Prop
  | .running p t => ∃ ps ts, ps ≠ [] ∧ (∀ x ∈ ps ++ ts, IsSeg x) ∧ ps ++ ts = orig ∧
      p = joinCh '/' ps ∧ t = joinCh '/' ts
  | .success p t => ∃ ps ts, ps ≠ [] ∧ (∀ x ∈ ps ++ ts, IsSeg x) ∧ ps ++ ts = orig ∧
      p = joinCh '/' ps ∧ t = joinCh '/' ts
  | .exhausted _ => True

theorem joinCh_segs_ne_dot (qs : List GoStr) (hne : qs ≠ [])
    (h : ∀ x ∈ qs, IsSeg x) : joinCh '/' qs ≠ ['.'] := by
  cases qs with
  | nil => exact absurd rfl hne
  | cons x xs =>
    cases xs with
    | nil =>
      have := (h x (by simp)).2.2.1
      simpa [joinCh] using this
    | cons y ys =>
      rw [joinCh_cons_cons]
      cases hx : x with
      | nil => exact absurd hx (h x (by simp)).1
      | cons c cs =>
        intro hcontra
        rw [List.cons_append] at hcontra
        have h1 : c = '.' ∧ cs ++ '/' :: joinCh '/' (y :: ys) = [] := by
          constructor
          · injection hcontra
          · have := (List.cons.injEq _ _ _ _).mp hcontra
            exact this.2
        simp at h1

theorem resolveStep_running (probe : GoStr → Option GoStr) (v : GoStr)
    (qs : List GoStr) (s : GoStr) (ts : List GoStr)
    (h : ∀ x ∈ qs ++ s :: ts, IsSeg x) :
    resolveStep probe v (.running (joinCh '/' (qs ++ [s])) (joinCh '/' ts)) =
      match probe (joinCh '/' (qs ++ [s]) ++ '@' :: v) with
      | none => .success (joinCh '/' (qs ++ [s])) (joinCh '/' ts)
      | some e => if qs = [] then .exhausted e
                  else .running (joinCh '/' qs) (joinCh '/' (s :: ts)) := by
  rw [resolveStep]
  cases probe (joinCh '/' (qs ++ [s]) ++ '@' :: v) with
  | none => rfl
  | some e =>
    rw [pathTrim_concat qs s ts h]
    by_cases hqs : qs = []
    · simp [hqs]
    · have hdot : joinCh '/' qs ≠ ['.'] :=
        joinCh_segs_ne_dot qs hqs (fun x hx => h x (by simp [hx]))
      simp [hqs, hdot]

theorem goodState_step (probe : GoStr → Option GoStr) (v : GoStr)
    (orig : List GoStr) (st : RState) (hst : GoodState orig st) :
    GoodState orig (resolveStep probe v st) := by
  cases st with
  | success r t => exact hst
  | exhausted e => exact hst
  | running p t =>
    obtain ⟨ps, ts, hps, hseg, horig, hp, ht⟩ := hst
    rcases List.eq_nil_or_concat ps with hnil | ⟨qs, s, hqs0⟩
    · exact absurd hnil hps
    · have hqs : ps = qs ++ [s] := by rw [hqs0, List.concat_eq_append]
      have hseg' : ∀ x ∈ qs ++ s :: ts, IsSeg x := by
        intro x hx
        apply hseg
        rw [hqs]
        simp at hx ⊢
        tauto
      rw [hp, ht, hqs, resolveStep_running probe v qs s ts hseg']
      cases probe (joinCh '/' (qs ++ [s]) ++ '@' :: v) with
      | none =>
        exact ⟨ps, ts, hps, hseg, horig, by rw [hqs], rfl⟩
      | some e =>
        by_cases hqsnil : qs = []
        · simp only [hqsnil, if_pos rfl]
          trivial
        · simp only [if_neg hqsnil]
          refine ⟨qs, s :: ts, hqsnil, ?_, ?_, rfl, rfl⟩
          · intro x hx
            apply hseg
            rw [hqs]
            simp at hx ⊢
            tauto
          · rw [← horig, hqs]
            simp

theorem goodState_joins (orig : List GoStr) (st : RState)
    (h : GoodState orig st) : RStateJoinsTo (joinCh '/' orig) st := by
  cases st with
  | exhausted e => trivial
  | running p t =>
    obtain ⟨ps, ts, hps, hseg, horig, hp, ht⟩ := h
    show goJoin2 p t = joinCh '/' orig
    rw [hp, ht, goJoin2_joins ps ts hps hseg, horig]
  | success r t =>
    obtain ⟨ps, ts, hps, hseg, horig, hp, ht⟩ := h
    show goJoin2 r t = joinCh '/' orig
    rw [hp, ht, goJoin2_joins ps ts hps hseg, horig]

theorem resolveStep_fixes_final (probe : GoStr → Option GoStr) (v : GoStr)
    (st : RState) (h : st.isFinal = true) : resolveStep probe v st = st := by
  cases st with
  | running p t => simp [RState.isFinal] at h
  | success r t => rfl
  | exhausted e => rfl

theorem iterate_stable (probe : GoStr → Option GoStr) (v : GoStr) (st : RState)
    (k : Nat) (h : ((resolveStep probe v)^[k] st).isFinal = true) :
    ∀ m, k ≤ m →
      (resolveStep probe v)^[m] st = (resolveStep probe v)^[k] st := by
  intro m hm
  obtain ⟨d, rfl⟩ : ∃ d, m = d + k := ⟨m - k, by omega⟩
  rw [Function.iterate_add_apply]
  exact Function.iterate_fixed (resolveStep_fixes_final probe v _ h) d

theorem resolve_fail_traj (f : GoStr → GoStr) (v : GoStr) (b : List GoStr) :
    ∀ (a ts : List GoStr), a ≠ [] → (∀ x ∈ a ++ b ++ ts, IsSeg x) →
    (resolveStep (fun s => some (f s)) v)^[b.length]
        (RState.running (joinCh '/' (a ++ b)) (joinCh '/' ts)) =
      RState.running (joinCh '/' a) (joinCh '/' (b ++ ts)) := by
  induction b using List.reverseRecOn with
  | nil =>
    intro a ts ha h
    simp
  | append_singleton b' s ih =>
    intro a ts ha h
    have hlen : (b' ++ [s]).length = b'.length + 1 := by simp
    rw [hlen, Function.iterate_succ_apply]
    have hassoc : a ++ (b' ++ [s]) = (a ++ b') ++ [s] := by simp
    have hseg1 : ∀ x ∈ (a ++ b') ++ s :: ts, IsSeg x := by
      intro x hx
      apply h
      simp at hx ⊢
      tauto
    rw [hassoc, resolveStep_running (fun s => some (f s)) v (a ++ b') s ts hseg1]
    have hane : a ++ b' ≠ [] := by
      intro hc
      exact ha (List.append_eq_nil.mp hc).1
    dsimp only
    rw [if_neg hane]
    have hres := ih a (s :: ts) ha
      (by intro x hx; apply h; simp at hx ⊢; tauto)
    rw [hres]
    have : b' ++ s :: ts = (b' ++ [s]) ++ ts := by simp
    rw [this]

theorem resolve_any_traj (probe : GoStr → Option GoStr) (v : GoStr) (b : List GoStr) :
    ∀ (a ts : List GoStr), a ≠ [] → (∀ x ∈ a ++ b ++ ts, IsSeg x) →
    (∃ k, k ≤ b.length ∧
      (((resolveStep probe v)^[k]
        (RState.running (joinCh '/' (a ++ b)) (joinCh '/' ts))).isFinal = true))
    ∨ (resolveStep probe v)^[b.length]
        (RState.running (joinCh '/' (a ++ b)) (joinCh '/' ts)) =
      RState.running (joinCh '/' a) (joinCh '/' (b ++ ts)) := by
  induction b using List.reverseRecOn with
  | nil =>
    intro a ts ha h
    right
    simp
  | append_singleton b' s ih =>
    intro a ts ha h
    have hlen : (b' ++ [s]).length = b'.length + 1 := by simp
    have hassoc : a ++ (b' ++ [s]) = (a ++ b') ++ [s] := by simp
    have hseg1 : ∀ x ∈ (a ++ b') ++ s :: ts, IsSeg x := by
      intro x hx
      apply h
      simp at hx ⊢
      tauto
    have hane : a ++ b' ≠ [] := by
      intro hc
      exact ha (List.append_eq_nil.mp hc).1
    have hstep := resolveStep_running probe v (a ++ b') s ts hseg1
    cases hp : probe (joinCh '/' ((a ++ b') ++ [s]) ++ '@' :: v) with
    | none =>
      left
      refine ⟨1, by simp, ?_⟩
      rw [Function.iterate_one, hassoc, hstep, hp]
      rfl
    | some e =>
      rw [hp] at hstep
      dsimp only at hstep
      rw [if_neg hane] at hstep
      rcases ih a (s :: ts) ha
          (by intro x hx; apply h; simp at hx ⊢; tauto) with ⟨k, hk, hfin⟩ | heq
      · left
        refine ⟨k + 1, by rw [hlen]; omega, ?_⟩
        rw [Function.iterate_succ_apply, hassoc, hstep]
        exact hfin
      · right
        rw [hlen, Function.iterate_succ_apply, hassoc, hstep, heq]
        have : b' ++ s :: ts = (b' ++ [s]) ++ ts := by simp
        rw [this]

/-- C1: tail-reconstruction invariant of the resolver.  For any probe
function and any iteration count `n`, the state reached after `n` steps of
the resolve loop of `Download`, started on a path made of well-formed
segments with an empty tail, separator-joins its current path and current
tail (in that order) back to the original input path; in particular in a
success state, joining root and tail reconstructs the input. -/
theorem resolve_tail_reconstruction (probe : GoStr → Option GoStr)
    (version : GoStr) (ss : List GoStr) (hss : ss ≠ [])
    (hseg : ∀ s ∈ ss, IsSeg s) (n : Nat) :
    RStateJoinsTo (joinCh '/' ss)
      ((resolveStep probe version)^[n] (RState.running (joinCh '/' ss) [])) := by
  have hgood : ∀ m : Nat,
      GoodState ss ((resolveStep probe version)^[m]
        (RState.running (joinCh '/' ss) [])) := by
    intro m
    induction m with
    | zero =>
      refine ⟨ss, [], hss, ?_, by simp, rfl, rfl⟩
      simpa using hseg
    | succ m ih =>
      rw [Function.iterate_succ_apply']
      exact goodState_step probe version ss _ ih
  exact goodState_joins ss _ (hgood n)

/-- Witness for C1 at a concrete input: three segments, an always-failing
probe, after one iteration. -/
theorem resolve_tail_reconstruction_witness :
    (([str "example.com", str "a", str "b"] : List GoStr) ≠ [] ∧
      ∀ s ∈ ([str "example.com", str "a", str "b"] : List GoStr), IsSeg s) ∧
    RStateJoinsTo (joinCh '/' [str "example.com", str "a", str "b"])
      ((resolveStep (fun s => some s) (str "latest"))^[1]
        (RState.running (joinCh '/' [str "example.com", str "a", str "b"]) [])) :=
  ⟨⟨by decide, by decide⟩,
    resolve_tail_reconstruction (fun s => some s) (str "latest")
      [str "example.com", str "a", str "b"] (by decide) (by decide) 1⟩

/-- C2: if the probe fails on every call with errors given by `f`, the
resolve loop reaches the `ResolutionExhausted` state wrapping the last
probe error after exactly `depth(path)` iterations (the number of path
segments), every earlier iterate still being a live loop state; and for an
arbitrary probe the loop always terminates within `depth(path)` steps in a
final (success or exhausted) state which no further step changes. -/
theorem resolve_exhaustion (f : GoStr → GoStr) (version : GoStr)
    (ss : List GoStr) (hss : ss ≠ []) (hseg : ∀ s ∈ ss, IsSeg s) :
    ((resolveStep (fun s => some (f s)) version)^[ss.length]
        (RState.running (joinCh '/' ss) []) =
      RState.exhausted (f (ss.headD [] ++ '@' :: version)))
    ∧ (∀ k, k < ss.length → ∃ p t,
        (resolveStep (fun s => some (f s)) version)^[k]
            (RState.running (joinCh '/' ss) []) = RState.running p t)
    ∧ (∀ probe : GoStr → Option GoStr, ∃ k, k ≤ ss.length ∧
        (((resolveStep probe version)^[k]
            (RState.running (joinCh '/' ss) [])).isFinal = true)
        ∧ ∀ m, k ≤ m →
            (resolveStep probe version)^[m] (RState.running (joinCh '/' ss) [])
              = (resolveStep probe version)^[k]
                  (RState.running (joinCh '/' ss) [])) := by
  obtain ⟨s1, rest, rfl⟩ : ∃ s1 rest, ss = s1 :: rest := by
    cases ss with
    | nil => exact absurd rfl hss
    | cons s1 rest => exact ⟨s1, rest, rfl⟩
  refine ⟨?_, ?_, ?_⟩
  · have hsegA : ∀ x ∈ ([s1] ++ rest ++ ([] : List GoStr)), IsSeg x := by
      intro x hx
      apply hseg
      simpa using hx
    have htraj := resolve_fail_traj f version rest [s1] [] (by simp) hsegA
    have hlen : (s1 :: rest).length = rest.length + 1 := rfl
    rw [hlen, Function.iterate_succ_apply']
    rw [show (resolveStep (fun s => some (f s)) version)^[rest.length]
        (RState.running (joinCh '/' (s1 :: rest)) []) =
        RState.running (joinCh '/' [s1]) (joinCh '/' (rest ++ [])) from htraj]
    rw [List.append_nil]
    have hstep := resolveStep_running (fun s => some (f s)) version [] s1 rest
      (by simpa using hseg)
    rw [List.nil_append] at hstep
    rw [hstep]
    dsimp only
    rw [if_pos rfl]
    rfl
  · intro k hk
    have hk' : k ≤ rest.length := by
      simp only [List.length_cons] at hk
      omega
    have hblen : (rest.drop (rest.length - k)).length = k := by
      rw [List.length_drop]
      omega
    have hsegB : ∀ x ∈ (s1 :: rest.take (rest.length - k)) ++
        rest.drop (rest.length - k) ++ ([] : List GoStr), IsSeg x := by
      intro x hx
      apply hseg
      simp only [List.append_nil, List.cons_append, List.mem_cons, List.mem_append] at hx
      rcases hx with hx | hx | hx
      · simp [hx]
      · exact List.mem_cons_of_mem s1 (List.take_subset _ _ hx)
      · exact List.mem_cons_of_mem s1 (List.drop_subset _ _ hx)
    have htraj := resolve_fail_traj f version (rest.drop (rest.length - k))
      (s1 :: rest.take (rest.length - k)) [] (by simp) hsegB
    have hstate : (s1 :: rest.take (rest.length - k)) ++ rest.drop (rest.length - k)
        = s1 :: rest := by
      rw [List.cons_append, List.take_append_drop]
    rw [hstate] at htraj
    rw [← hblen]
    exact ⟨_, _, htraj⟩
  · intro probe
    have hsegA : ∀ x ∈ ([s1] ++ rest ++ ([] : List GoStr)), IsSeg x := by
      intro x hx
      apply hseg
      simpa using hx
    rcases resolve_any_traj probe version rest [s1] [] (by simp) hsegA
        with ⟨k, hk, hfin⟩ | heq
    · refine ⟨k, ?_, hfin, iterate_stable probe version _ k hfin⟩
      simp only [List.length_cons]
      omega
    · rw [List.append_nil] at heq
      have hstep := resolveStep_running probe version [] s1 rest
        (by simpa using hseg)
      rw [List.nil_append] at hstep
      have hfin2 : ((resolveStep probe version)^[rest.length + 1]
          (RState.running (joinCh '/' (s1 :: rest)) [])).isFinal = true := by
        rw [Function.iterate_succ_apply']
        rw [show (resolveStep probe version)^[rest.length]
            (RState.running (joinCh '/' (s1 :: rest)) []) =
            RState.running (joinCh '/' [s1]) (joinCh '/' rest) from heq]
        rw [hstep]
        cases probe (joinCh '/' [s1] ++ '@' :: version) with
        | none => rfl
        | some e =>
          dsimp only
          rw [if_pos rfl]
          rfl
      exact ⟨rest.length + 1, by simp, hfin2,
        iterate_stable probe version _ _ hfin2⟩

/-- Witness for C2 at a concrete input: two segments, always-failing
probe returning the probed string as the error. -/
theorem resolve_exhaustion_witness :
    (([str "example.com", str "tool"] : List GoStr) ≠ [] ∧
      ∀ s ∈ ([str "example.com", str "tool"] : List GoStr), IsSeg s) ∧
    (((resolveStep (fun s => some s) (str "latest"))^[2]
        (RState.running (joinCh '/' [str "example.com", str "tool"]) []) =
      RState.exhausted (str "example.com" ++ '@' :: str "latest"))
    ∧ (∀ k, k < ([str "example.com", str "tool"] : List GoStr).length →
        ∃ p t, (resolveStep (fun s => some s) (str "latest"))^[k]
            (RState.running (joinCh '/' [str "example.com", str "tool"]) [])
          = RState.running p t)
    ∧ (∀ probe : GoStr → Option GoStr, ∃ k,
        k ≤ ([str "example.com", str "tool"] : List GoStr).length ∧
        (((resolveStep probe (str "latest"))^[k]
            (RState.running (joinCh '/' [str "example.com", str "tool"]) [])).isFinal
          = true)
        ∧ ∀ m, k ≤ m →
            (resolveStep probe (str "latest"))^[m]
                (RState.running (joinCh '/' [str "example.com", str "tool"]) [])
              = (resolveStep probe (str "latest"))^[k]
                  (RState.running (joinCh '/' [str "example.com", str "tool"]) []))) :=
  ⟨⟨by decide, by decide⟩,
    resolve_exhaustion (fun s => s) (str "latest")
      [str "example.com", str "tool"] (by decide) (by decide)⟩

/-! ### `golang.org/x/mod/module.CheckPath`

`validateMod` in main.go delegates the path half of a coordinate to
`module.CheckPath`, translated below.  In the rune-sequence model every
string is valid UTF-8, so the `utf8.ValidString` guard of `checkPath` is
always satisfied and is omitted.  `strings.EqualFold` is only ever reached
with ASCII arguments (the element has already passed the `modPathOK`
character filter, and the reserved Windows names are ASCII), where it
coincides with ASCII lowercase comparison. -/

/-- Characters allowed in a module-path element (`modPathOK`). -/
def modPathOK (c : Char) : Bool :=
  c == '-' || c == '.' || c == '_' || c == '~' ||
    c.isDigit || c.isUpper || c.isLower

/-- Characters allowed in the first element of a module path
(`firstPathOK`): lowercase letters, digits, dashes and dots only. -/
def firstPathOK (c : Char) : Bool :=
  c == '-' || c == '.' || c.isDigit || c.isLower

/-- Reserved Windows file names rejected inside path elements. -/
def badWindowsNames : List GoStr :=
  [str "CON", str "PRN", str "AUX", str "NUL",
   str "COM1", str "COM2", str "COM3", str "COM4", str "COM5",
   str "COM6", str "COM7", str "COM8", str "COM9",
   str "LPT1", str "LPT2", str "LPT3", str "LPT4", str "LPT5",
   str "LPT6", str "LPT7", str "LPT8", str "LPT9"]

/-- `strings.EqualFold` on ASCII arguments. -/
def equalFold (a b : GoStr) : Bool :=
  a.map Char.toLower == b.map Char.toLower

/-- `checkElem` for the `modulePath` path kind. -/
def checkElem (elem : GoStr) : Bool :=
  if elem = [] then false
  else if elem.all (fun c => c == '.') then false
  else if elem.head? = some '.' then false
  else if elem.getLast? = some '.' then false
  else if !(elem.all modPathOK) then false
  else
    let short := elem.takeWhile (fun c => c != '.')
    if badWindowsNames.any (fun bad => equalFold bad short) then false
    else if short.contains '~' &&
        (let suf := (short.reverse.takeWhile (fun c => c != '~')).reverse
         !suf.isEmpty && suf.all Char.isDigit) then false
    else true

/-- `strings.Contains(p, "//")`. -/
def hasDoubleSlash : GoStr → Bool
  | [] => false
  | [_] => false
  | a :: b :: r => (a == '/' && b == '/') || hasDoubleSlash (b :: r)

/-- `checkPath(path, modulePath)`: overall shape checks plus `checkElem`
on every slash-separated element. -/
def checkPath (p : GoStr) : Bool :=
  if p = [] then false
  else if p.head? = some '-' then false
  else if hasDoubleSlash p then false
  else if p.getLast? = some '/' then false
  else (splitCh '/' p).all checkElem

/-- The `ok` result of `splitGopkgIn`: gopkg.in paths must end in `.vN`
(optionally followed by `-unstable`) with no leading zero in `N`. -/
def splitGopkgInOK (p : GoStr) : Bool :=
  let body := if (str "-unstable").isSuffixOf p then p.take (p.length - 9) else p
  let digitsRev := body.reverse.takeWhile Char.isDigit
  let rest := body.reverse.drop digitsRev.length
  match rest with
  | 'v' :: '.' :: _ =>
    let pm := p.drop (rest.length - 2)
    if pm.length ≤ 2 then false
    else if pm.getD 2 ' ' = '0' then false
    else true
  | _ => false

/-- The `ok` result of `SplitPathVersion`: a trailing `/vN` major-version
suffix must be `/v2` or later, with no dot and no leading zero. -/
def splitPathVersionOK (p : GoStr) : Bool :=
  if (str "gopkg.in/").isPrefixOf p then splitGopkgInOK p
  else
    let sufRev := p.reverse.takeWhile (fun c => c.isDigit || c == '.')
    let rest := p.reverse.drop sufRev.length
    if sufRev.isEmpty then true
    else
      match rest with
      | 'v' :: '/' :: _ =>
        if sufRev.contains '.' then false
        else if sufRev.getLast? = some '0' then false
        else if sufRev == ['1'] then false
        else true
      | _ => true

/-- `module.CheckPath`. -/
def CheckPath (p : GoStr) : Bool :=
  if !checkPath p then false
  else
    let first := p.takeWhile (fun c => c != '/')
    if first = [] then false
    else if !(first.contains '.') then false
    else if p.head? = some '-' then false
    else if !(first.all firstPathOK) then false
    else splitPathVersionOK p

/-- `validateMod` from main.go: split at "@"; exactly two parts are
required and the first must pass `module.CheckPath`. -/
def validateMod (mod : GoStr) : Bool :=
  match splitCh '@' mod with
  | [p, _] => CheckPath p
  | _ => false

/-- Modelled from the spec: "validation succeeds iff `path` conforms to
the hierarchical module-path grammar and `version` is non-empty" — like
`validateMod` but additionally requiring the version part to be
non-empty. -/
def validateModSpec (mod : GoStr) : Bool :=
  match splitCh '@' mod with
  | [p, v] => CheckPath p && !v.isEmpty
  | _ => false

/-! ### `validateShort` and the `reShort` regular expression

main.go compiles `reShort` as the pattern
`^([0-9A-Za-z]+[0-9A-Za-z_-]*[0-9A-Za-z]+)|([0-9A-Za-z]+)$`.
In Go regexp syntax alternation binds loosest, so this parses as
`(^A)|(B$)` — the anchors belong to one branch each — and the unanchored
`MatchString` search succeeds iff some prefix of the string matches `A`
or some suffix matches `B`. -/

/-- Strings matched by `[0-9A-Za-z]+[0-9A-Za-z_-]*[0-9A-Za-z]+`: length
at least two, every character alphanumeric or '_' or '-', and the first
and last characters alphanumeric. -/
def reShortG1 (p : GoStr) : Bool :=
  decide (2 ≤ p.length) &&
    p.all (fun c => c.isAlphanum || c == '_' || c == '-') &&
    (match p.head? with | some c => c.isAlphanum | none => false) &&
    (match p.getLast? with | some c => c.isAlphanum | none => false)

/-- Strings matched by `[0-9A-Za-z]+`. -/
def reShortG2 (p : GoStr) : Bool := !p.isEmpty && p.all Char.isAlphanum

/-- `validateShort` from main.go, i.e. `reShort.MatchString short`. -/
def validateShort (short : GoStr) : Bool :=
  (List.range (short.length + 1)).any (fun n => reShortG1 (short.take n))
    || (List.range (short.length + 1)).any (fun n => reShortG2 (short.drop n))

/-- Modelled from the spec (and from `validateShort`'s own doc comment):
the short name itself "starts and ends with an alphanumeric character,
optionally containing - or _ in the interior, or is a single
alphanumeric character". -/
def validateShortSpec (short : GoStr) : Bool :=
  reShortG1 short ||
    (match short with
     | [c] => c.isAlphanum
     | _ => false)

theorem validateMod_eq_two (p v mod : GoStr) (h : splitCh '@' mod = [p, v]) :
    validateMod mod = CheckPath p := by
  unfold validateMod
  rw [h]

theorem validateMod_eq_other (mod : GoStr)
    (h : ∀ p v, splitCh '@' mod ≠ [p, v]) : validateMod mod = false := by
  unfold validateMod
  cases hsp : splitCh '@' mod with
  | nil => rfl
  | cons p r =>
    cases r with
    | nil => rfl
    | cons v r2 =>
      cases r2 with
      | nil => exact absurd hsp (h p v)
      | cons w r3 => rfl

/-- C3 counterexample: the coordinate "example.com/x@" has an empty
version, yet `validateMod` accepts it, while the spec-modelled validator
(which requires a non-empty version) rejects it. -/
theorem validateMod_accepts_empty_version :
    validateMod (str "example.com/x@") = true
    ∧ validateModSpec (str "example.com/x@") = false := by
  decide

/-- C3 (amended): `validateMod` succeeds iff the string splits at a single
'@' into `path@version` with `path` conforming to the module-path grammar
(`module.CheckPath`); the version part may be any '@'-free string,
including the empty one — version non-emptiness is not checked. -/
theorem validateMod_iff (mod : GoStr) :
    validateMod mod = true ↔
      ∃ p v, mod = p ++ '@' :: v ∧ '@' ∉ p ∧ '@' ∉ v ∧ CheckPath p = true := by
  constructor
  · intro h
    cases hsp : splitCh '@' mod with
    | nil => exact absurd hsp (splitCh_ne_nil _ _)
    | cons p r =>
      cases r with
      | nil =>
        rw [validateMod_eq_other mod (by rw [hsp]; intro a b hc; simp at hc)] at h
        exact absurd h (by simp)
      | cons v r2 =>
        cases r2 with
        | nil =>
          rw [validateMod_eq_two p v mod hsp] at h
          refine ⟨p, v, ?_, ?_, ?_, h⟩
          · have hj := joinCh_splitCh '@' mod
            rw [hsp] at hj
            rw [← hj]
            rfl
          · exact not_mem_of_mem_splitCh '@' mod p (by rw [hsp]; simp)
          · exact not_mem_of_mem_splitCh '@' mod v (by rw [hsp]; simp)
        | cons w r3 =>
          rw [validateMod_eq_other mod (by rw [hsp]; intro a b hc; simp at hc)] at h
          exact absurd h (by simp)
  · rintro ⟨p, v, rfl, hp, hv, hcp⟩
    have hsp : splitCh '@' (p ++ '@' :: v) = [p, v] := by
      rw [splitCh_append_sep '@' p v hp, splitCh_of_not_mem '@' v hv]
    rw [validateMod_eq_two p v _ hsp]
    exact hcp

/-- C4: the `reShort` pattern is anchored per alternation branch, so
`validateShort` accepts any string with a two-character alphanumeric
run at the start or an alphanumeric character at the end.  "ab-" (which
ends in '-') and "a/b" (which contains '/') are accepted by the code,
while the documented/spec pattern rejects both. -/
theorem validateShort_accepts_trailing_dash :
    validateShort (str "ab-") = true
    ∧ validateShortSpec (str "ab-") = false
    ∧ validateShort (str "a/b") = true
    ∧ validateShortSpec (str "a/b") = false := by
  decide

/-! ### The alias registry (main.go)

An embedded filesystem is modelled as a list of (path, lines) pairs in
walk order; `fs.WalkDir` visits files in lexical path order and the
walker skips directories, so only files appear.  The Go `links` map with
its explicit already-exists check is modelled as an association list in
insertion order. -/

deriving instance DecidableEq for Except

structure Link where
  Short : GoStr
  Pkg : GoStr
  Desc : GoStr
deriving DecidableEq

/-- The zero `Link{}` value used to signal an ignorable line. -/
def emptyLink : Link := ⟨[], [], []⟩

inductive AliasErr where
  | badLine : AliasErr
  | badModule (short pkg : GoStr) : AliasErr
  | dupLink (short file : GoStr) : AliasErr
deriving DecidableEq

/-- `lineToLink` from main.go: comment lines give the empty link; then the
line is split on single spaces, fewer than two fields is "bad line",
validation failure of the first two fields is "bad module", and the
description is the space-join of the remaining fields. -/
def lineToLink (line : GoStr) : Except AliasErr Link :=
  if line.head? = some '#' then .ok emptyLink
  else
    match splitCh ' ' line with
    | s :: p :: rest =>
      if !validateShort s || !validateMod p then .error (.badModule s p)
      else .ok ⟨s, p, joinCh ' ' rest⟩
    | _ => .error .badLine

/-- Lookup in the association-list model of the Go `links` map. -/
def lookupLink (links : List (GoStr × Link)) (k : GoStr) : Option Link :=
  match links.find? (fun e => e.1 == k) with
  | some e => some e.2
  | none => none

/-- The per-file namespace computation of `fsWalker`: strip the "lists/"
directory, skip files without the ".list" extension (`none`), and turn
the bare name into a namespace: "_" means no namespace, any other name is
used as a prefix together with a '/' separator. -/
def listName (path : GoStr) : Option GoStr :=
  let name := if (str "lists/").isPrefixOf path then path.drop 6 else path
  if !((str ".list").isSuffixOf name) then none
  else
    let name2 := name.take (name.length - 5)
    if name2 = str "_" then some [] else some (name2 ++ ['/'])

/-- The scanner loop of `fsWalker` over the lines of one file: parse each
line, skip empty links, namespace the short name, fail on an existing key
and otherwise insert. -/
def linesPass (nsp fpath : GoStr) :
    List GoStr → List (GoStr × Link) → Except AliasErr (List (GoStr × Link))
  | [], acc => .ok acc
  | line :: rest, acc =>
    match lineToLink line with
    | .error e => .error e
    | .ok link =>
      if link = emptyLink then linesPass nsp fpath rest acc
      else
        if (lookupLink acc (nsp ++ link.Short)).isSome then
          .error (.dupLink (nsp ++ link.Short) fpath)
        else linesPass nsp fpath rest
          (acc ++ [(nsp ++ link.Short, ⟨nsp ++ link.Short, link.Pkg, link.Desc⟩)])

/-- The `fs.WalkDir` traversal: process the files in order, threading the
accumulated links and stopping at the first error. -/
def fsWalk : List (GoStr × List GoStr) → List (GoStr × Link) →
    Except AliasErr (List (GoStr × Link))
  | [], acc => .ok acc
  | (fpath, lines) :: rest, acc =>
    match listName fpath with
    | none => fsWalk rest acc
    | some nsp =>
      match linesPass nsp fpath lines acc with
      | .error e => .error e
      | .ok acc2 => fsWalk rest acc2

/-- `fsToLinks` from main.go. -/
def fsToLinks (files : List (GoStr × List GoStr)) :
    Except AliasErr (List (GoStr × Link)) :=
  fsWalk files []

/-- The namespaced short name a line contributes, if any. -/
def lineShort (nsp line : GoStr) : Option GoStr :=
  match lineToLink line with
  | .ok link => if link = emptyLink then none else some (nsp ++ link.Short)
  | .error _ => none

/-- All namespaced short names contributed by one source file. -/
def fileShorts (f : GoStr × List GoStr) : List GoStr :=
  match listName f.1 with
  | none => []
  | some nsp => f.2.filterMap (lineShort nsp)

/-- All namespaced short names of all source files, in order. -/
def catShorts : List (GoStr × List GoStr) → List GoStr
  | [] => []
  | f :: rest => fileShorts f ++ catShorts rest

/-- A line parses without error. -/
def lineOk (line : GoStr) : Bool :=
  match lineToLink line with
  | .ok _ => true
  | .error _ => false

/-- Every line of every processed (".list") source file parses. -/
def WfFiles (files : List (GoStr × List GoStr)) : Prop :=
  ∀ f ∈ files, (listName f.1).isSome = true → ∀ line ∈ f.2, lineOk line = true

instance (files : List (GoStr × List GoStr)) : Decidable (WfFiles files) := by
  unfold WfFiles
  infer_instance

theorem linesPass_nil (nsp fpath : GoStr) (acc : List (GoStr × Link)) :
    linesPass nsp fpath [] acc = .ok acc := rfl

theorem linesPass_cons (nsp fpath line : GoStr) (rest : List GoStr)
    (acc : List (GoStr × Link)) :
    linesPass nsp fpath (line :: rest) acc =
      match lineToLink line with
      | .error e => .error e
      | .ok link =>
        if link = emptyLink then linesPass nsp fpath rest acc
        else
          if (lookupLink acc (nsp ++ link.Short)).isSome then
            .error (.dupLink (nsp ++ link.Short) fpath)
          else linesPass nsp fpath rest
            (acc ++ [(nsp ++ link.Short, ⟨nsp ++ link.Short, link.Pkg, link.Desc⟩)]) := rfl

theorem lineToLink_no_dup (line s f2 : GoStr) :
    lineToLink line ≠ .error (.dupLink s f2) := by
  unfold lineToLink
  by_cases h : line.head? = some '#'
  · simp [h]
  · rw [if_neg h]
    cases splitCh ' ' line with
    | nil => simp
    | cons a r =>
      cases r with
      | nil => simp
      | cons b r2 =>
        dsimp only
        by_cases hv : (!validateShort a || !validateMod b) = true
        · simp [hv]
        · rw [if_neg (by simp_all)]
          simp

theorem lineShort_of_err (nsp line : GoStr) (e : AliasErr)
    (h : lineToLink line = .error e) : lineShort nsp line = none := by
  unfold lineShort
  rw [h]

theorem lineShort_of_empty (nsp line : GoStr)
    (h : lineToLink line = .ok emptyLink) : lineShort nsp line = none := by
  unfold lineShort
  rw [h]
  simp

theorem lineShort_of_ok (nsp line : GoStr) (link : Link)
    (h : lineToLink line = .ok link) (hne : link ≠ emptyLink) :
    lineShort nsp line = some (nsp ++ link.Short) := by
  unfold lineShort
  rw [h]
  simp [hne]

theorem lookupLink_isSome (acc : List (GoStr × Link)) (k : GoStr) :
    (lookupLink acc k).isSome = true ↔ k ∈ acc.map Prod.fst := by
  unfold lookupLink
  cases hf : acc.find? (fun e => e.1 == k) with
  | none =>
    constructor
    · intro h
      simp at h
    · intro h
      obtain ⟨e, he, he2⟩ := List.mem_map.mp h
      have hnp := List.find?_eq_none.mp hf e he
      simp [he2] at hnp
  | some e =>
    constructor
    · intro _
      have hp := List.find?_some hf
      have hmem : e ∈ acc := List.mem_of_find?_eq_some hf
      have he : e.1 = k := by simpa using hp
      exact he ▸ List.mem_map_of_mem Prod.fst hmem
    · intro _
      rfl

theorem not_nodup_of_mem_both (l1 l2 : List GoStr) (a : GoStr)
    (h1 : a ∈ l1) (h2 : a ∈ l2) : ¬ (l1 ++ l2).Nodup := by
  intro h
  exact (List.disjoint_of_nodup_append h) h1 h2

theorem linesPass_ok_keys (nsp fpath : GoStr) (lines : List GoStr) :
    ∀ (acc m : List (GoStr × Link)), linesPass nsp fpath lines acc = .ok m →
      m.map Prod.fst = acc.map Prod.fst ++ lines.filterMap (lineShort nsp) := by
  induction lines with
  | nil =>
    intro acc m h
    rw [linesPass_nil] at h
    cases h
    simp
  | cons line rest ih =>
    intro acc m h
    rw [linesPass_cons] at h
    cases hl : lineToLink line with
    | error e =>
      rw [hl] at h
      exact absurd h (by simp)
    | ok link =>
      rw [hl] at h
      dsimp only at h
      by_cases hemp : link = emptyLink
      · rw [if_pos hemp] at h
        rw [List.filterMap_cons_none (lineShort_of_empty nsp line (hemp ▸ hl))]
        exact ih acc m h
      · rw [if_neg hemp] at h
        rw [List.filterMap_cons_some (lineShort_of_ok nsp line link hl hemp)]
        by_cases hdup : (lookupLink acc (nsp ++ link.Short)).isSome = true
        · rw [if_pos hdup] at h
          exact absurd h (by simp)
        · rw [if_neg hdup] at h
          rw [ih _ m h]
          simp

theorem linesPass_ok_nodup (nsp fpath : GoStr) (lines : List GoStr) :
    ∀ (acc m : List (GoStr × Link)), linesPass nsp fpath lines acc = .ok m →
      (acc.map Prod.fst).Nodup → (m.map Prod.fst).Nodup := by
  induction lines with
  | nil =>
    intro acc m h hnd
    rw [linesPass_nil] at h
    cases h
    exact hnd
  | cons line rest ih =>
    intro acc m h hnd
    rw [linesPass_cons] at h
    cases hl : lineToLink line with
    | error e =>
      rw [hl] at h
      exact absurd h (by simp)
    | ok link =>
      rw [hl] at h
      dsimp only at h
      by_cases hemp : link = emptyLink
      · rw [if_pos hemp] at h
        exact ih acc m h hnd
      · rw [if_neg hemp] at h
        by_cases hdup : (lookupLink acc (nsp ++ link.Short)).isSome = true
        · rw [if_pos hdup] at h
          exact absurd h (by simp)
        · rw [if_neg hdup] at h
          apply ih _ m h
          have hknot : (nsp ++ link.Short) ∉ acc.map Prod.fst := by
            intro hmem
            exact hdup ((lookupLink_isSome acc _).mpr hmem)
          rw [List.map_append]
          rw [List.nodup_append]
          refine ⟨hnd, by simp, ?_⟩
          intro a ha hb
          simp at hb
          subst hb
          exact hknot ha

theorem linesPass_err_dup (nsp fpath : GoStr) (lines : List GoStr) :
    ∀ (acc : List (GoStr × Link)) (s f2 : GoStr),
      linesPass nsp fpath lines acc = .error (.dupLink s f2) →
      ¬ (acc.map Prod.fst ++ lines.filterMap (lineShort nsp)).Nodup := by
  induction lines with
  | nil =>
    intro acc s f2 h
    rw [linesPass_nil] at h
    exact absurd h (by simp)
  | cons line rest ih =>
    intro acc s f2 h
    rw [linesPass_cons] at h
    cases hl : lineToLink line with
    | error e =>
      rw [hl] at h
      dsimp only at h
      cases h
      exact absurd hl (lineToLink_no_dup line s f2)
    | ok link =>
      rw [hl] at h
      dsimp only at h
      by_cases hemp : link = emptyLink
      · rw [if_pos hemp] at h
        rw [List.filterMap_cons_none (lineShort_of_empty nsp line (hemp ▸ hl))]
        exact ih acc s f2 h
      · rw [if_neg hemp] at h
        rw [List.filterMap_cons_some (lineShort_of_ok nsp line link hl hemp)]
        by_cases hdup : (lookupLink acc (nsp ++ link.Short)).isSome = true
        · have hk : (nsp ++ link.Short) ∈ acc.map Prod.fst :=
            (lookupLink_isSome acc _).mp hdup
          exact not_nodup_of_mem_both _ _ (nsp ++ link.Short) hk (by simp)
        · rw [if_neg hdup] at h
          have := ih _ s f2 h
          rw [List.map_append] at this
          intro hcontra
          apply this
          simpa [List.append_assoc] using hcontra

theorem linesPass_err_wf (nsp fpath : GoStr) (lines : List GoStr) :
    ∀ (acc : List (GoStr × Link)) (e : AliasErr),
      linesPass nsp fpath lines acc = .error e →
      (∀ line ∈ lines, lineOk line = true) →
      ∃ s, e = .dupLink s fpath ∧
        ¬ (acc.map Prod.fst ++ lines.filterMap (lineShort nsp)).Nodup := by
  induction lines with
  | nil =>
    intro acc e h _
    rw [linesPass_nil] at h
    exact absurd h (by simp)
  | cons line rest ih =>
    intro acc e h hwf
    rw [linesPass_cons] at h
    cases hl : lineToLink line with
    | error e2 =>
      have := hwf line (by simp)
      unfold lineOk at this
      rw [hl] at this
      exact absurd this (by simp)
    | ok link =>
      rw [hl] at h
      dsimp only at h
      by_cases hemp : link = emptyLink
      · rw [if_pos hemp] at h
        rw [List.filterMap_cons_none (lineShort_of_empty nsp line (hemp ▸ hl))]
        exact ih acc e h (fun l hl2 => hwf l (by simp [hl2]))
      · rw [if_neg hemp] at h
        rw [List.filterMap_cons_some (lineShort_of_ok nsp line link hl hemp)]
        by_cases hdup : (lookupLink acc (nsp ++ link.Short)).isSome = true
        · rw [if_pos hdup] at h
          cases h
          have hk : (nsp ++ link.Short) ∈ acc.map Prod.fst :=
            (lookupLink_isSome acc _).mp hdup
          exact ⟨nsp ++ link.Short, rfl,
            not_nodup_of_mem_both _ _ (nsp ++ link.Short) hk (by simp)⟩
        · rw [if_neg hdup] at h
          obtain ⟨s, hs, hnot⟩ := ih _ e h (fun l hl2 => hwf l (by simp [hl2]))
          refine ⟨s, hs, ?_⟩
          rw [List.map_append] at hnot
          intro hcontra
          apply hnot
          simpa [List.append_assoc] using hcontra

theorem fsWalk_nil (acc : List (GoStr × Link)) : fsWalk [] acc = .ok acc := rfl

theorem fsWalk_cons (fpath : GoStr) (lines : List GoStr)
    (rest : List (GoStr × List GoStr)) (acc : List (GoStr × Link)) :
    fsWalk ((fpath, lines) :: rest) acc =
      match listName fpath with
      | none => fsWalk rest acc
      | some nsp =>
        match linesPass nsp fpath lines acc with
        | .error e => .error e
        | .ok acc2 => fsWalk rest acc2 := rfl

theorem catShorts_cons (f : GoStr × List GoStr) (rest : List (GoStr × List GoStr)) :
    catShorts (f :: rest) = fileShorts f ++ catShorts rest := rfl

theorem fileShorts_none (f : GoStr × List GoStr) (h : listName f.1 = none) :
    fileShorts f = [] := by
  unfold fileShorts
  rw [h]

theorem fileShorts_some (f : GoStr × List GoStr) (nsp : GoStr)
    (h : listName f.1 = some nsp) : fileShorts f = f.2.filterMap (lineShort nsp) := by
  unfold fileShorts
  rw [h]

theorem fsWalk_ok_keys (files : List (GoStr × List GoStr)) :
    ∀ (acc m : List (GoStr × Link)), fsWalk files acc = .ok m →
      m.map Prod.fst = acc.map Prod.fst ++ catShorts files := by
  induction files with
  | nil =>
    intro acc m h
    rw [fsWalk_nil] at h
    cases h
    simp [catShorts]
  | cons f rest ih =>
    intro acc m h
    obtain ⟨fpath, lines⟩ := f
    rw [fsWalk_cons] at h
    rw [catShorts_cons]
    cases hn : listName fpath with
    | none =>
      rw [hn] at h
      dsimp only at h
      rw [ih acc m h, fileShorts_none (fpath, lines) hn]
      simp
    | some nsp =>
      rw [hn] at h
      dsimp only at h
      cases hlp : linesPass nsp fpath lines acc with
      | error e =>
        rw [hlp] at h
        exact absurd h (by simp)
      | ok acc2 =>
        rw [hlp] at h
        dsimp only at h
        rw [ih acc2 m h, linesPass_ok_keys nsp fpath lines acc acc2 hlp,
          fileShorts_some (fpath, lines) nsp hn]
        simp [List.append_assoc]

theorem fsWalk_ok_nodup (files : List (GoStr × List GoStr)) :
    ∀ (acc m : List (GoStr × Link)), fsWalk files acc = .ok m →
      (acc.map Prod.fst).Nodup → (m.map Prod.fst).Nodup := by
  induction files with
  | nil =>
    intro acc m h hnd
    rw [fsWalk_nil] at h
    cases h
    exact hnd
  | cons f rest ih =>
    intro acc m h hnd
    obtain ⟨fpath, lines⟩ := f
    rw [fsWalk_cons] at h
    cases hn : listName fpath with
    | none =>
      rw [hn] at h
      dsimp only at h
      exact ih acc m h hnd
    | some nsp =>
      rw [hn] at h
      dsimp only at h
      cases hlp : linesPass nsp fpath lines acc with
      | error e =>
        rw [hlp] at h
        exact absurd h (by simp)
      | ok acc2 =>
        rw [hlp] at h
        dsimp only at h
        exact ih acc2 m h (linesPass_ok_nodup nsp fpath lines acc acc2 hlp hnd)

theorem fsWalk_err_dup (files : List (GoStr × List GoStr)) :
    ∀ (acc : List (GoStr × Link)) (s f2 : GoStr),
      fsWalk files acc = .error (.dupLink s f2) →
      ¬ (acc.map Prod.fst ++ catShorts files).Nodup := by
  induction files with
  | nil =>
    intro acc s f2 h
    rw [fsWalk_nil] at h
    exact absurd h (by simp)
  | cons f rest ih =>
    intro acc s f2 h
    obtain ⟨fpath, lines⟩ := f
    rw [fsWalk_cons] at h
    rw [catShorts_cons]
    cases hn : listName fpath with
    | none =>
      rw [hn] at h
      dsimp only at h
      have := ih acc s f2 h
      rw [fileShorts_none (fpath, lines) hn]
      simpa using this
    | some nsp =>
      rw [hn] at h
      dsimp only at h
      cases hlp : linesPass nsp fpath lines acc with
      | error e =>
        rw [hlp] at h
        dsimp only at h
        cases h
        have hnot := linesPass_err_dup nsp fpath lines acc s f2 hlp
        rw [fileShorts_some (fpath, lines) nsp hn]
        intro hc
        apply hnot
        rw [← List.append_assoc] at hc
        exact hc.of_append_left
      | ok acc2 =>
        rw [hlp] at h
        dsimp only at h
        have := ih acc2 s f2 h
        rw [linesPass_ok_keys nsp fpath lines acc acc2 hlp] at this
        rw [fileShorts_some (fpath, lines) nsp hn]
        intro hc
        apply this
        simpa [List.append_assoc] using hc

theorem fsWalk_err_wf (files : List (GoStr × List GoStr)) :
    ∀ (acc : List (GoStr × Link)) (e : AliasErr),
      fsWalk files acc = .error e → WfFiles files →
      ∃ s f2, e = .dupLink s f2 ∧
        ¬ (acc.map Prod.fst ++ catShorts files).Nodup := by
  induction files with
  | nil =>
    intro acc e h _
    rw [fsWalk_nil] at h
    exact absurd h (by simp)
  | cons f rest ih =>
    intro acc e h hwf
    obtain ⟨fpath, lines⟩ := f
    rw [fsWalk_cons] at h
    rw [catShorts_cons]
    have hwfrest : WfFiles rest := fun g hg => hwf g (List.mem_cons_of_mem _ hg)
    cases hn : listName fpath with
    | none =>
      rw [hn] at h
      dsimp only at h
      obtain ⟨s, f2, hs, hnot⟩ := ih acc e h hwfrest
      refine ⟨s, f2, hs, ?_⟩
      rw [fileShorts_none (fpath, lines) hn]
      simpa using hnot
    | some nsp =>
      have hwfhead : ∀ line ∈ lines, lineOk line = true := by
        intro l hl2
        refine hwf (fpath, lines) (by simp) ?_ l hl2
        show (listName fpath).isSome = true
        rw [hn]
        rfl
      rw [hn] at h
      dsimp only at h
      cases hlp : linesPass nsp fpath lines acc with
      | error e2 =>
        rw [hlp] at h
        dsimp only at h
        injection h with he
        subst he
        obtain ⟨s, hs, hnot⟩ := linesPass_err_wf nsp fpath lines acc _ hlp hwfhead
        refine ⟨s, fpath, hs, ?_⟩
        rw [fileShorts_some (fpath, lines) nsp hn]
        intro hc
        apply hnot
        rw [← List.append_assoc] at hc
        exact hc.of_append_left
      | ok acc2 =>
        rw [hlp] at h
        dsimp only at h
        obtain ⟨s, f2, hs, hnot⟩ := ih acc2 e h hwfrest
        rw [linesPass_ok_keys nsp fpath lines acc acc2 hlp] at hnot
        refine ⟨s, f2, hs, ?_⟩
        rw [fileShorts_some (fpath, lines) nsp hn]
        intro hc
        apply hnot
        simpa [List.append_assoc] using hc

/-- C6 counterexample: a blank/empty line is not ignored — it has fewer
than two space-separated fields, so `lineToLink` signals the bad-line
error and registry loading aborts instead of continuing. -/
theorem blank_line_aborts_loading :
    lineToLink [] = .error .badLine
    ∧ fsToLinks [(str "lists/_.list", [[], str "gopl example.com/gopl@latest tool"])]
        = .error .badLine := by
  decide

/-- C6 (amended): a line starting with '#' is ignored (it parses to the
empty link, which the loader skips); any non-comment line with fewer than
two space-separated fields — including the blank/empty line — signals the
InvalidAliasLine ("bad line") error, so loading does NOT continue past it;
and a validated record line parses with the first field as short name,
the second as target, and the space-join of the remaining fields (the
remainder of the line) as description. -/
theorem lineToLink_spec (line s p : GoStr) (rest : List GoStr) :
    (line.head? = some '#' → lineToLink line = .ok emptyLink)
    ∧ (line.head? ≠ some '#' → (splitCh ' ' line).length < 2 →
        lineToLink line = .error .badLine)
    ∧ (line.head? ≠ some '#' → splitCh ' ' line = s :: p :: rest →
        validateShort s = true → validateMod p = true →
        lineToLink line = .ok ⟨s, p, joinCh ' ' rest⟩
          ∧ line = joinCh ' ' (s :: p :: rest)) := by
  refine ⟨?_, ?_, ?_⟩
  · intro h
    unfold lineToLink
    rw [if_pos h]
  · intro h hlen
    unfold lineToLink
    rw [if_neg h]
    cases hsp : splitCh ' ' line with
    | nil => rfl
    | cons a r =>
      cases r with
      | nil => rfl
      | cons b r2 =>
        rw [hsp] at hlen
        simp at hlen
        omega
  · intro h hsp hs hp
    constructor
    · unfold lineToLink
      rw [if_neg h, hsp]
      dsimp only
      rw [if_neg (by simp [hs, hp])]
    · have := joinCh_splitCh ' ' line
      rw [hsp] at this
      exact this.symm

/-- Witness for C6 at a concrete record line. -/
theorem lineToLink_spec_witness :
    ((str "gopl example.com/gopl@latest go tool").head? ≠ some '#'
      ∧ splitCh ' ' (str "gopl example.com/gopl@latest go tool")
          = str "gopl" :: str "example.com/gopl@latest" :: [str "go", str "tool"]
      ∧ validateShort (str "gopl") = true
      ∧ validateMod (str "example.com/gopl@latest") = true)
    ∧ (lineToLink (str "gopl example.com/gopl@latest go tool")
        = .ok ⟨str "gopl", str "example.com/gopl@latest",
            joinCh ' ' [str "go", str "tool"]⟩
      ∧ (str "gopl example.com/gopl@latest go tool")
        = joinCh ' ' (str "gopl" :: str "example.com/gopl@latest"
            :: [str "go", str "tool"])) :=
  ⟨⟨by decide, by decide, by decide, by decide⟩,
    (lineToLink_spec (str "gopl example.com/gopl@latest go tool")
      (str "gopl") (str "example.com/gopl@latest") [str "go", str "tool"]).2.2
      (by decide) (by decide) (by decide) (by decide)⟩

/-- C7: registry loading fails with the duplicate-alias error exactly when
the same namespaced short name occurs twice across the sources.
Unconditionally, a duplicate-alias failure implies a duplicated namespaced
short name; for sources whose lines all parse, loading succeeds with the
map keyed by exactly the namespaced short names when they are distinct
(so the same short under two distinct namespaces does not collide and
both entries are loaded), and fails with a duplicate-alias error when
some namespaced short name repeats. -/
theorem fsToLinks_duplicate_iff (files : List (GoStr × List GoStr)) :
    (∀ s f2, fsToLinks files = .error (.dupLink s f2) → ¬ (catShorts files).Nodup)
    ∧ (WfFiles files →
        ((catShorts files).Nodup →
          ∃ m, fsToLinks files = .ok m ∧ m.map Prod.fst = catShorts files)
        ∧ (¬ (catShorts files).Nodup →
          ∃ s f2, fsToLinks files = .error (.dupLink s f2))) := by
  constructor
  · intro s f2 h
    have := fsWalk_err_dup files [] s f2 h
    simpa using this
  · intro hwf
    constructor
    · intro hnd
      cases hres : fsToLinks files with
      | ok m =>
        refine ⟨m, rfl, ?_⟩
        have := fsWalk_ok_keys files [] m hres
        simpa using this
      | error e =>
        obtain ⟨s, f2, heq, hnot⟩ := fsWalk_err_wf files [] e hres hwf
        exact absurd (by simpa using hnd) hnot
    · intro hnot
      cases hres : fsToLinks files with
      | error e =>
        obtain ⟨s, f2, heq, _⟩ := fsWalk_err_wf files [] e hres hwf
        refine ⟨s, f2, ?_⟩
        rw [← heq]
      | ok m =>
        exfalso
        apply hnot
        have hkeys := fsWalk_ok_keys files [] m hres
        have hnd2 := fsWalk_ok_nodup files [] m hres (by simp)
        rw [hkeys] at hnd2
        simpa using hnd2

/-- Witness for C7: two sources with distinct namespaces and the same
bare short name "x"; loading succeeds with both namespaced entries. -/
theorem fsToLinks_duplicate_iff_witness :
    (WfFiles [(str "lists/a.list", [str "x example.com/p@v1"]),
              (str "lists/b.list", [str "x example.com/q@v1"])]
      ∧ (catShorts [(str "lists/a.list", [str "x example.com/p@v1"]),
                    (str "lists/b.list", [str "x example.com/q@v1"])]).Nodup)
    ∧ (∃ m, fsToLinks [(str "lists/a.list", [str "x example.com/p@v1"]),
                       (str "lists/b.list", [str "x example.com/q@v1"])] = .ok m
        ∧ m.map Prod.fst
            = catShorts [(str "lists/a.list", [str "x example.com/p@v1"]),
                         (str "lists/b.list", [str "x example.com/q@v1"])]) :=
  ⟨⟨by decide, by decide⟩,
    ((fsToLinks_duplicate_iff
        [(str "lists/a.list", [str "x example.com/p@v1"]),
         (str "lists/b.list", [str "x example.com/q@v1"])]).2
      (by decide)).1 (by decide)⟩

/-! ### The alias lookup and substitution in `main` (main.go lines 50-69)

`main` splits the token at every '@' into `modPath`, looks the first part
up in the registry, replaces `modPath[0]` with the alias path on a hit,
appends the alias version only when the user supplied no version
(`len(modPath) == 1`), re-joins with '@', and then always validates the
result.  `modLink[0]`/`modLink[1]` index the split of the stored
coordinate; registry entries always contain exactly one '@' (they passed
`validateMod` at load time), which the `headD`/`getD` defaults stand in
for (the Go code would panic on an out-of-range index). -/

def resolveToken (links : List (GoStr × Link)) (mod : GoStr) : GoStr :=
  match lookupLink links ((splitCh '@' mod).headD []) with
  | some link =>
    joinCh '@'
      (if ((splitCh '@' link.Pkg).headD [] :: (splitCh '@' mod).tail).length = 1
       then ((splitCh '@' link.Pkg).headD [] :: (splitCh '@' mod).tail)
         ++ [(splitCh '@' link.Pkg).getD 1 []]
       else ((splitCh '@' link.Pkg).headD [] :: (splitCh '@' mod).tail))
  | none => joinCh '@' (splitCh '@' mod)

inductive PrepResult where
  | invalid (m : GoStr) : PrepResult
  | proceed (m : GoStr) : PrepResult
deriving DecidableEq

/-- main.go lines 50-69: substitute the alias, then validate; an invalid
coordinate prints the invalid-pkg error and exits 1, a valid one proceeds
to download/build/run. -/
def mainPrep (links : List (GoStr × Link)) (mod : GoStr) : PrepResult :=
  if validateMod (resolveToken links mod) then .proceed (resolveToken links mod)
  else .invalid (resolveToken links mod)

/-- The registry of the spec's example: one source `_.list` with the
`gopl` line. -/
def goplFiles : List (GoStr × List GoStr) :=
  [(str "lists/_.list",
    [str "gopl example.com/gopl@latest go programming language tool"])]

/-- The loaded example registry. -/
def goplLinks : List (GoStr × Link) :=
  match fsToLinks goplFiles with
  | .ok m => m
  | .error _ => []

theorem resolveToken_of_none (links : List (GoStr × Link)) (mod : GoStr)
    (h : lookupLink links ((splitCh '@' mod).headD []) = none) :
    resolveToken links mod = joinCh '@' (splitCh '@' mod) := by
  unfold resolveToken
  rw [h]

theorem resolveToken_of_some (links : List (GoStr × Link)) (mod : GoStr)
    (link : Link)
    (h : lookupLink links ((splitCh '@' mod).headD []) = some link) :
    resolveToken links mod =
      joinCh '@'
        (if ((splitCh '@' link.Pkg).headD [] :: (splitCh '@' mod).tail).length = 1
         then ((splitCh '@' link.Pkg).headD [] :: (splitCh '@' mod).tail)
           ++ [(splitCh '@' link.Pkg).getD 1 []]
         else ((splitCh '@' link.Pkg).headD [] :: (splitCh '@' mod).tail)) := by
  unfold resolveToken
  rw [h]

/-- C5: alias substitution.  On a registry hit the alias's module path
always replaces the name; the alias's version is used exactly when the
user supplied no version; an explicit user version wins; the substituted
coordinate is still validated (a matched alias cannot bypass validation);
and on the spec's example registry, `gopl` resolves to
`example.com/gopl@latest` while `gopl@v1.2.0` resolves to
`example.com/gopl@v1.2.0`. -/
theorem alias_substitution :
    (∀ (links : List (GoStr × Link)) (name : GoStr) (link : Link),
      lookupLink links name = some link → '@' ∉ name →
      (splitCh '@' link.Pkg).length = 2 →
      resolveToken links name = link.Pkg)
    ∧ (∀ (links : List (GoStr × Link)) (name v : GoStr) (link : Link)
        (lp : GoStr) (lrest : List GoStr),
      lookupLink links name = some link → '@' ∉ name → '@' ∉ v →
      splitCh '@' link.Pkg = lp :: lrest →
      resolveToken links (name ++ '@' :: v) = lp ++ '@' :: v)
    ∧ (∀ (links : List (GoStr × Link)) (mod m : GoStr),
        mainPrep links mod = .proceed m →
        m = resolveToken links mod ∧ validateMod m = true)
    ∧ (mainPrep goplLinks (str "gopl") = .proceed (str "example.com/gopl@latest")
      ∧ mainPrep goplLinks (str "gopl@v1.2.0")
          = .proceed (str "example.com/gopl@v1.2.0")) := by
  refine ⟨?_, ?_, ?_, by decide⟩
  · intro links name link hlk hname hlen
    have hsp : splitCh '@' name = [name] := splitCh_of_not_mem '@' name hname
    obtain ⟨lp, lv, hpk⟩ : ∃ lp lv, splitCh '@' link.Pkg = [lp, lv] := by
      cases hk : splitCh '@' link.Pkg with
      | nil => exact absurd hk (splitCh_ne_nil _ _)
      | cons a r =>
        cases r with
        | nil =>
          rw [hk] at hlen
          simp at hlen
        | cons b r2 =>
          cases r2 with
          | nil => exact ⟨a, b, rfl⟩
          | cons c r3 =>
            rw [hk] at hlen
            simp at hlen
    have hlk2 : lookupLink links ((splitCh '@' name).headD []) = some link := by
      rw [hsp]
      exact hlk
    rw [resolveToken_of_some links name link hlk2, hsp, hpk]
    show joinCh '@' [lp, lv] = link.Pkg
    have hj := joinCh_splitCh '@' link.Pkg
    rw [hpk] at hj
    exact hj
  · intro links name v link lp lrest hlk hname hv hpk
    have hsp : splitCh '@' (name ++ '@' :: v) = [name, v] := by
      rw [splitCh_append_sep '@' name v hname, splitCh_of_not_mem '@' v hv]
    have hlk2 : lookupLink links ((splitCh '@' (name ++ '@' :: v)).headD [])
        = some link := by
      rw [hsp]
      exact hlk
    rw [resolveToken_of_some links _ link hlk2, hsp, hpk]
    rfl
  · intro links mod m h
    unfold mainPrep at h
    by_cases hv : validateMod (resolveToken links mod) = true
    · rw [if_pos hv] at h
      cases h
      exact ⟨rfl, hv⟩
    · rw [if_neg hv] at h
      exact absurd h (by simp)

/-- Witness for C5: the first conjunct applied to the example registry. -/
theorem alias_substitution_witness :
    (lookupLink goplLinks (str "gopl")
        = some ⟨str "gopl", str "example.com/gopl@latest",
            str "go programming language tool"⟩
      ∧ '@' ∉ str "gopl"
      ∧ (splitCh '@' (str "example.com/gopl@latest")).length = 2)
    ∧ resolveToken goplLinks (str "gopl")
        = (⟨str "gopl", str "example.com/gopl@latest",
            str "go programming language tool"⟩ : Link).Pkg :=
  ⟨⟨by decide, by decide, by decide⟩,
    alias_substitution.1 goplLinks (str "gopl")
      ⟨str "gopl", str "example.com/gopl@latest",
        str "go programming language tool"⟩
      (by decide) (by decide) (by decide)⟩

theorem length_ne_two_of_ge_three (l : List GoStr) (h : 3 ≤ l.length) :
    ∀ p v : GoStr, l ≠ [p, v] := by
  intro p v hc
  rw [hc] at h
  simp at h

theorem headD_mem (l : List GoStr) (hl : l ≠ []) : l.headD [] ∈ l := by
  cases l with
  | nil => exact absurd rfl hl
  | cons a r => exact List.mem_cons_self a r

/-- C10: a token containing two or more '@' characters is rejected
whether or not its first part matches an alias: substitution splits on
every '@' and re-joins all parts, so the result still has at least two
'@' characters, and `validateMod` requires the split to have exactly two
parts. -/
theorem multi_at_rejected (links : List (GoStr × Link)) (mod : GoStr)
    (h : 2 ≤ mod.count '@') :
    validateMod (resolveToken links mod) = false
    ∧ mainPrep links mod = .invalid (resolveToken links mod) := by
  have hlen : 3 ≤ (splitCh '@' mod).length := by
    rw [length_splitCh]
    omega
  have hmain : validateMod (resolveToken links mod) = false := by
    cases hlk : lookupLink links ((splitCh '@' mod).headD []) with
    | none =>
      rw [resolveToken_of_none links mod hlk]
      have hresplit : splitCh '@' (joinCh '@' (splitCh '@' mod)) = splitCh '@' mod :=
        splitCh_joinCh '@' (splitCh '@' mod) (splitCh_ne_nil '@' mod)
          (fun p hp => not_mem_of_mem_splitCh '@' mod p hp)
      apply validateMod_eq_other
      rw [hresplit]
      exact length_ne_two_of_ge_three _ hlen
    | some link =>
      rw [resolveToken_of_some links mod link hlk]
      rw [if_neg (by simp only [List.length_cons, List.length_tail]; omega)]
      have hne : ((splitCh '@' link.Pkg).headD [] :: (splitCh '@' mod).tail) ≠ [] := by
        simp
      have hfree : ∀ p ∈ ((splitCh '@' link.Pkg).headD [] :: (splitCh '@' mod).tail),
          '@' ∉ p := by
        intro p hp
        rcases List.mem_cons.mp hp with hp | hp
        · subst hp
          exact not_mem_of_mem_splitCh '@' link.Pkg _
            (headD_mem _ (splitCh_ne_nil '@' link.Pkg))
        · exact not_mem_of_mem_splitCh '@' mod p (List.mem_of_mem_tail hp)
      have hresplit := splitCh_joinCh '@' _ hne hfree
      apply validateMod_eq_other
      rw [hresplit]
      apply length_ne_two_of_ge_three
      simp only [List.length_cons]
      have : (splitCh '@' mod).tail.length = (splitCh '@' mod).length - 1 :=
        List.length_tail _
      omega
  refine ⟨hmain, ?_⟩
  unfold mainPrep
  rw [if_neg (by simp [hmain])]

/-- Witness for C10: the token `gopl@v1@x` (two '@') against the example
registry whose key `gopl` matches. -/
theorem multi_at_rejected_witness :
    2 ≤ (str "gopl@v1@x").count '@'
    ∧ (validateMod (resolveToken goplLinks (str "gopl@v1@x")) = false
      ∧ mainPrep goplLinks (str "gopl@v1@x")
          = .invalid (resolveToken goplLinks (str "gopl@v1@x"))) :=
  ⟨by decide, multi_at_rejected goplLinks (str "gopl@v1@x") (by decide)⟩

/-! ### Running the built binary (main.go lines 85-92)

`cmd.Run()` either returns nil (child ran and exited 0), an
`*exec.ExitError` (child ran and exited with a nonzero code), or another
error (the binary could not be started).  The code checks
`if _, ok := err.(*exec.ExitError); !ok` — i.e. it enters the branch
calling `os.Exit(cmd.ProcessState.ExitCode())` only when the error is NOT
an ExitError.  In that case the process never started and
`cmd.ProcessState` is nil; `(*os.ProcessState).ExitCode` is nil-safe and
returns -1 for a process that was never started, so the branch prints the
diagnostic and calls `os.Exit(-1)`, which the operating system reports as
exit status 255.  When the error IS an ExitError the branch is skipped,
`main` returns normally and the process exits with status 0. -/

inductive RunErr where
  | exitErr (code : Nat) : RunErr
  | startErr : RunErr
deriving DecidableEq

/-- The launcher's own exit status as a function of the `cmd.Run()`
outcome, per main.go lines 85-92: a nonzero child exit falls through to a
normal return (status 0); a start failure exits with
`ProcessState.ExitCode()` of a nil `ProcessState`, i.e. `os.Exit(-1)`,
reported as status 255. -/
def runExit : Option RunErr → Nat
  | none => 0
  | some (.exitErr _) => 0
  | some .startErr => 255

/-- Modelled from the spec: "on successful execution, the invoked
program's own exit code is propagated", and a failure to start the binary
is the ExecutionFailure error, surfaced as a nonzero diagnostic exit. -/
def runExitSpec : Option RunErr → Nat
  | none => 0
  | some (.exitErr c) => c
  | some .startErr => 255

/-- C8: the type assertion in main.go is inverted, so a nonzero child
exit is swallowed — the launcher exits 0 instead of propagating the
child's code — while on a failure to start the binary it exits with the
nil-`ProcessState` code -1 (status 255).  The spec-modelled behaviour
propagates the child's code. -/
theorem runExit_swallows_exit_code :
    runExit (some (.exitErr 3)) = 0
    ∧ runExitSpec (some (.exitErr 3)) = 3
    ∧ (∀ c, runExit (some (.exitErr c)) = 0)
    ∧ runExit (some .startErr) = 255 :=
  ⟨rfl, rfl, fun _ => rfl, rfl⟩

/-! ### The temporary build artifact (Build, lines 79-103; main, 77-92)

`Build` creates a temporary file, closes it, and runs `go build -o` into
it.  The external outcomes (does `CreateTemp` succeed, does `Close`
succeed, does `go build` succeed) are the components of `BuildWorld`;
`BuildModel` returns whether `Build` succeeds and whether the temporary
file still exists when it returns.  `main` registers
`defer os.Remove(tool)` only after a successful `Build`.  The deferred
remove runs when `main` returns — after a clean child run and after the
fall-through of an ExitError — but the failed-start branch calls
`os.Exit`, which terminates the process WITHOUT running deferred
functions, so the temporary binary survives there; on a Build error
`main` likewise calls `os.Exit(1)` with no deferred remove registered. -/

structure BuildWorld where
  createTempOk : Bool
  closeOk : Bool
  goBuildOk : Bool
deriving DecidableEq

inductive BuildRes where
  | ok : BuildRes
  | err : BuildRes
deriving DecidableEq

/-- `Build`: (result, does the temp file exist after Build returns).
`CreateTemp` failure: no file.  `Close` failure (lines 89-91): Build
returns the error WITHOUT removing the file.  `go build` failure (lines
98-100): the file is removed before returning.  Success: the file exists
and its name is returned. -/
def BuildModel (w : BuildWorld) : BuildRes × Bool :=
  if !w.createTempOk then (.err, false)
  else if !w.closeOk then (.err, true)
  else if !w.goBuildOk then (.err, false)
  else (.ok, true)

/-- Does the temporary file still exist when the launcher process
terminates, for a given world and `cmd.Run()` outcome.  After a
successful Build, the deferred `os.Remove` runs only when `main` returns
(clean run or ExitError fall-through); the failed-start branch leaves via
`os.Exit`, which skips deferred functions and leaves the file behind. -/
def tmpFileAtExit (w : BuildWorld) (r : Option RunErr) : Bool :=
  match BuildModel w with
  | (.err, present) => present
  | (.ok, _) =>
    match r with
    | some .startErr => true
    | _ => false

/-- C9 counterexample: the temporary file is left behind on two exit
paths — when closing the freshly created temporary file fails (Build
returns the error without deleting it), and when the built binary fails
to start (`os.Exit` skips the deferred `os.Remove`). -/
theorem tmpFile_left_behind :
    tmpFileAtExit ⟨true, false, true⟩ none = true
    ∧ tmpFileAtExit ⟨true, true, true⟩ (some .startErr) = true := by
  decide

/-- C9 (amended): the temporary artifact is deleted on normal completion
of the invoked program, on the fall-through of a nonzero child exit, and
on a `go build` failure inside Build; it is left behind exactly when
closing the freshly created temporary file fails (Build returns without
removing it), or when Build succeeded and the invoked binary failed to
start (that branch exits via `os.Exit`, which skips the deferred
`os.Remove`). -/
theorem tmpFileAtExit_iff (w : BuildWorld) (r : Option RunErr) :
    tmpFileAtExit w r = true ↔
      ((w.createTempOk = true ∧ w.closeOk = false)
        ∨ (w.createTempOk = true ∧ w.closeOk = true ∧ w.goBuildOk = true
            ∧ r = some RunErr.startErr)) := by
  rcases w with ⟨ct, cl, gb⟩
  rcases r with _ | re
  · cases ct <;> cases cl <;> cases gb <;> simp [tmpFileAtExit, BuildModel]
  · cases re <;> cases ct <;> cases cl <;> cases gb <;>
      simp [tmpFileAtExit, BuildModel]

end VA
